import Mathlib

/-!
Verification development for the fiesta electromagnetic likelihood
(src/fiesta/inference/likelihood.py, class EMLikelihood).

The scalar field of magnitudes, times and errors is kept generic in a
linear ordered field K, so that every construction-level definition is a
computable function that can be evaluated on concrete rational inputs,
while the analytic statements instantiate K with the reals.

Floating point infinity is modelled by the two-constructor type EF K
(a finite value or positive infinity); the code only ever compares
against +inf (np.inf / jnp.inf), so no further IEEE structure is needed.

Python dictionaries are modelled as association lists with a
last-binding-wins lookup (dlookup), matching both dict literals built by
dict(zip(..)) and repeated item assignment.  Python lists are Lean lists;
list.remove is List.erase (both drop the first occurrence).  The
for-loop of EMLikelihood.process_data iterates by an internal index over
a list that the body itself shortens; process_data_loop reproduces that
index-based semantics step by step (with a fuel argument that is large
enough to never be exhausted, so the recursion stays structural).
-/

namespace Fiesta

/-- Floating point value used by the likelihood code: either a finite scalar
or positive infinity (np.inf / jnp.inf). -/
inductive EF (K : Type) where
  | fin (x : K)
  | inf
  deriving DecidableEq

/-- Finite part of an extended value (the code only reads this on entries it
has already checked to be different from +inf). -/
def EF.val {K : Type} [Zero K] : EF K → K
  | .fin x => x
  | .inf => 0

/-- One observation row of the per-filter data array: time, magnitude and
magnitude error (the error may be +inf, which marks a non-detection). -/
structure Row (K : Type) where
  time : K
  mag : K
  err : EF K
  deriving DecidableEq

/-- Python dict lookup on an association list: the last binding of a key wins,
matching dict construction by dict(zip(keys, vals)) and by item assignment. -/
def dlookup {V : Type} (d : List (String × V)) (k : String) : Option V :=
  d.foldl (fun acc p => if p.1 = k then some p.2 else acc) none

/-- Sequence a fallible map over a list, failing if any element fails; this
models both a Python loop that may raise KeyError and a jax tree map whose
per-leaf lookups must all succeed. -/
def seqMap {A B : Type} (g : A → Option B) : List A → Option (List B)
  | [] => some []
  | a :: l =>
    match g a, seqMap g l with
    | some b, some bs => some (b :: bs)
    | _, _ => none

/-- Surrogate model interface used by the likelihood: a fixed time grid and a
per-filter magnitude prediction from a parameter mapping. -/
structure LightcurveModel (K : Type) where
  times : List K
  predict : List (String × K) → String → List K

/-- Error budget argument of the constructor: a scalar (broadcast to every
requested filter) or an explicit per-filter mapping. -/
inductive BudgetArg (K : Type) where
  | scalar (b : K)
  | dict (d : List (String × K))

/-- Detection limit argument of the constructor: absent (None), a scalar, or
an explicit per-filter mapping. -/
inductive LimitArg (K : Type) where
  | none
  | scalar (l : EF K)
  | dict (d : List (String × EF K))

/-- Shift the observation times by the trigger epoch and keep the rows whose
shifted time t satisfies tmin < t and t < tmax; this is the numpy mask
(times > tmin) * (times < tmax) of process_data. -/
def windowRows {K : Type} [LinearOrderedField K] (trigger_time tmin tmax : K)
    (rows : List (Row K)) : List (Row K) :=
  (rows.map fun r => { r with time := r.time - trigger_time }).filter
    fun r => decide (tmin < r.time) && decide (r.time < tmax)

/-- Rows selected by the index array idx_no_inf = where(mag_err != inf):
fancy indexing by the increasing list of detection indices is the
order-preserving sublist of rows with finite error. -/
def detRows {K : Type} [DecidableEq K] (w : List (Row K)) : List (Row K) :=
  w.filter fun r => decide (r.err ≠ EF.inf)

/-- Integer index array idx_no_inf = where(mag_err != inf)[0] on the windowed
rows. -/
def detIdxs {K : Type} [DecidableEq K] (w : List (Row K)) : List Nat :=
  (List.range w.length).filter fun i => decide ((w[i]?.map Row.err) ≠ some EF.inf)

/-- Rows selected by times[~idx_no_inf]: numpy ~ on an integer index array is
bitwise not, so index i becomes -(i+1), which python negative indexing reads
as position (length - 1 - i).  This is the code as written, not a set
complement of the detection indices. -/
def nondetRows {K : Type} [DecidableEq K] (w : List (Row K)) : List (Row K) :=
  (detIdxs w).filterMap fun i => w[w.length - 1 - i]?

/-- Replacement k.replace(":", "_") on one key: for a single-character
pattern and replacement this is the character-wise substitution. -/
def normKey (s : String) : String :=
  String.mk (s.data.map fun c => if c = ':' then '_' else c)

/-- Key normalisation of the observation mapping: every ":" in a filter name
is replaced by "_" before matching. -/
def normalizeData {K : Type} (data : List (String × List (Row K))) :
    List (String × List (Row K)) :=
  data.map fun p => (normKey p.1, p.2)

/-- Mutable state of the process_data loop: the (aliased, in-place mutated)
filter list plus the five per-filter dictionaries being filled in. -/
structure ProcAcc (K : Type) where
  filters : List String
  times_det : List (String × List K)
  mag_det : List (String × List K)
  mag_err : List (String × List K)
  times_nondet : List (String × List K)
  mag_nondet : List (String × List K)

/-- Index-based semantics of the Python for-loop of process_data.  At index i
the loop reads filters[i]; if that filter is absent from the (normalised)
data it removes its first occurrence from the very list being iterated
(so the element that slides into position i is silently skipped), otherwise
it windows the rows and stores the detection and non-detection arrays.  The
fuel argument only bounds the recursion; it is chosen large enough in
process_data that the loop always terminates by its own index test first. -/
def process_data_loop {K : Type} [LinearOrderedField K]
    (dataN : List (String × List (Row K))) (trigger_time tmin tmax : K) :
    Nat → Nat → ProcAcc K → ProcAcc K
  | 0, _, acc => acc
  | fuel + 1, i, acc =>
    if h : i < acc.filters.length then
      let filt := acc.filters[i]
      match dlookup dataN filt with
      | none =>
        process_data_loop dataN trigger_time tmin tmax fuel (i + 1)
          { acc with filters := acc.filters.erase filt }
      | some rows =>
        let w := windowRows trigger_time tmin tmax rows
        let det := detRows w
        let nd := nondetRows w
        process_data_loop dataN trigger_time tmin tmax fuel (i + 1)
          { acc with
            times_det := acc.times_det ++ [(filt, det.map Row.time)]
            mag_det := acc.mag_det ++ [(filt, det.map Row.mag)]
            mag_err := acc.mag_err ++ [(filt, det.map fun r => EF.val r.err)]
            times_nondet := acc.times_nondet ++ [(filt, nd.map Row.time)]
            mag_nondet := acc.mag_nondet ++ [(filt, nd.map Row.mag)] }
    else acc

/-- EMLikelihood.process_data: normalise the data keys, then run the loop
starting from the caller's filter list and empty dictionaries.  A fuel of
filters.length is sufficient: the loop index grows by one per iteration and
the list never grows, so the index test fails after at most that many
steps. -/
def process_data {K : Type} [LinearOrderedField K] (filters : List String)
    (data : List (String × List (Row K))) (trigger_time tmin tmax : K) : ProcAcc K :=
  process_data_loop (normalizeData data) trigger_time tmin tmax
    filters.length 0 ⟨filters, [], [], [], [], []⟩

/-- Error budget normalisation of the constructor: a scalar is broadcast over
the requested filters by dict(zip(filters, [b]*len(filters))). -/
def mkErrorBudget {K : Type} (filters : List String) :
    BudgetArg K → List (String × K)
  | .scalar b => filters.map fun f => (f, b)
  | .dict d => d

/-- Detection limit normalisation of the constructor: a scalar is broadcast
over the requested filters, and an absent limit becomes +inf per filter. -/
def mkDetLimit {K : Type} (filters : List String) :
    LimitArg K → List (String × EF K)
  | .scalar l => filters.map fun f => (f, l)
  | .none => filters.map fun f => (f, EF.inf)
  | .dict d => d

/-- Sigma precomputation loop of the constructor: for every filter still in
self.filters, sigma[filt] = sqrt(mag_err[filt]**2 + error_budget[filt]**2);
a missing dictionary entry is a KeyError, modelled as failure. -/
def sigmaLoop {K : Type} [LinearOrderedField K] (sqrt : K → K)
    (fl : List String) (me : List (String × List K)) (eb : List (String × K)) :
    Option (List (String × List K)) :=
  seqMap (fun f =>
    match dlookup me f, dlookup eb f with
    | some es, some b => some (f, es.map fun e => sqrt (e ^ 2 + b ^ 2))
    | _, _ => Option.none) fl

/-- State of a constructed EMLikelihood object.  The filters field is the
same list object the caller passed in (the constructor aliases and mutates
it), so it is also what the caller observes after construction. -/
structure EMLikelihood (K : Type) where
  model : LightcurveModel K
  filters : List String
  trigger_time : K
  tmin : K
  tmax : K
  ignore_nondetections : Bool
  detection_limit : List (String × EF K)
  error_budget : List (String × K)
  times_det : List (String × List K)
  mag_det : List (String × List K)
  mag_err : List (String × List K)
  sigma : List (String × List K)
  times_nondet : List (String × List K)
  mag_nondet : List (String × List K)
  fixed_params : List (String × K)

/-- EMLikelihood.__init__, in source order: normalise the error budget, then
the detection limit, process the data, force ignore_nondetections when the
times_nondet dictionary ended up with no entries, and finally precompute
sigma for every remaining filter (a KeyError there aborts construction,
modelled by returning none).  The square root is passed in as a function
parameter so that the definition stays computable over any field. -/
def EMLikelihood.init {K : Type} [LinearOrderedField K] (sqrt : K → K)
    (model : LightcurveModel K) (filters : List String)
    (data : List (String × List (Row K))) (trigger_time tmin tmax : K)
    (error_budget : BudgetArg K) (fixed_params : List (String × K))
    (ignore_nondetections : Bool) (detection_limit : LimitArg K) :
    Option (EMLikelihood K) :=
  let eb := mkErrorBudget filters error_budget
  let dl := mkDetLimit filters detection_limit
  let pd := process_data filters data trigger_time tmin tmax
  let ign := if pd.times_nondet.isEmpty then true else ignore_nondetections
  (sigmaLoop sqrt pd.filters pd.mag_err eb).map fun sg =>
    { model := model, filters := pd.filters, trigger_time := trigger_time,
      tmin := tmin, tmax := tmax, ignore_nondetections := ign,
      detection_limit := dl, error_budget := eb,
      times_det := pd.times_det, mag_det := pd.mag_det, mag_err := pd.mag_err,
      sigma := sg, times_nondet := pd.times_nondet, mag_nondet := pd.mag_nondet,
      fixed_params := fixed_params }

/-- EMLikelihood.compute_chisq: the untruncated chi-square log-likelihood
-0.5 * sum((mag_det - mag_est)^2 / sigma^2); the detection limit argument is
accepted but unused, exactly as in the source. -/
def compute_chisq {K : Type} [LinearOrderedField K]
    (mag_est mag_det sigma : List K) (lim : EF K) : K :=
  -(1 / 2) *
    ((mag_det.zip (mag_est.zip sigma)).map fun p => (p.1 - p.2.1) ^ 2 / p.2.2 ^ 2).sum

/-- EMLikelihood.compute_chisq_trunc: the sum of the per-observation
truncated-Gaussian log-likelihood truncated_gaussian(mag_det, sigma,
mag_est, lim).  The per-observation function lives in fiesta.utils and is
passed in as a parameter. -/
def compute_chisq_trunc {K : Type} [LinearOrderedField K]
    (truncated_gaussian : K → K → K → K → K)
    (mag_est mag_det sigma : List K) (lim : K) : K :=
  ((mag_det.zip (sigma.zip mag_est)).map fun p =>
    truncated_gaussian p.1 p.2.1 p.2.2 lim).sum

/-- EMLikelihood.get_chisq_filt: jax.lax.cond(lim == inf, compute_chisq,
compute_chisq_trunc) as a value-level selection on the limit. -/
def get_chisq_filt {K : Type} [LinearOrderedField K]
    (truncated_gaussian : K → K → K → K → K)
    (mag_est mag_det sigma : List K) : EF K → K
  | EF.inf => compute_chisq mag_est mag_det sigma EF.inf
  | EF.fin l => compute_chisq_trunc truncated_gaussian mag_est mag_det sigma l

/-- Parameter merge of evaluate, line 104: theta = {**theta, **fixed_params}
builds a new mapping in which a fixed binding shadows any same-named
sampled binding (under last-binding-wins lookup). -/
def mergeTheta {K : Type} (theta fixed_params : List (String × K)) :
    List (String × K) :=
  theta ++ fixed_params

/-- Non-detection contribution of evaluate: the gaussprob block is commented
out in the source and gaussprob_total is the literal 0.0. -/
def gaussprob_total {K : Type} [LinearOrderedField K] : K := 0

/-- Linear interpolation step of jnp.interp over the remaining grid points,
clamping to the last value past the right end of the grid. -/
def interpGo {K : Type} [LinearOrderedField K] :
    K → K → List K → List K → K → K
  | _, f0, [], _, _ => f0
  | _, f0, _ :: _, [], _ => f0
  | x0, f0, x1 :: xs, f1 :: fs, t =>
    if t ≤ x1 then f0 + (f1 - f0) * (t - x0) / (x1 - x0) else interpGo x1 f1 xs fs t

/-- jnp.interp(t, xp, fp) at a single query point t for an increasing grid
xp: clamped to fp.head below the grid and to fp.last above it, piecewise
linear in between. -/
def interp1 {K : Type} [LinearOrderedField K] (xp fp : List K) (t : K) : K :=
  match xp, fp with
  | [], _ => 0
  | _ :: _, [] => 0
  | x :: xs, f :: fs => if t ≤ x then f else interpGo x f xs fs t

/-- Per-filter leaf of the chisq tree map of evaluate: look up the detection
magnitudes, the precomputed sigma and the detection limit of the filter and
apply get_chisq_filt to the interpolated predictions; a missing entry is a
tree-structure error, modelled as failure. -/
def chisq_filt_term {K : Type} [LinearOrderedField K]
    (truncated_gaussian : K → K → K → K → K) (L : EMLikelihood K)
    (mag_app : String → List K) (p : String × List K) : Option K :=
  match dlookup L.mag_det p.1, dlookup L.sigma p.1, dlookup L.detection_limit p.1 with
  | some md, some sg, some lim =>
    some (get_chisq_filt truncated_gaussian
      (p.2.map (interp1 L.model.times (mag_app p.1))) md sg lim)
  | _, _, _ => Option.none

/-- EMLikelihood.evaluate: merge theta with the fixed parameters, predict the
absolute magnitudes, convert them to apparent magnitudes with the
luminosity distance of the merged mapping (KeyError, modelled as failure,
if that name is absent), interpolate onto the detection times of each
filter, sum the per-filter chi-square terms, and add the non-detection
total, which is 0.  The conversion mag_app_from_mag_abs and the
per-observation truncated_gaussian live in fiesta.utils and are passed in
as parameters. -/
def evaluate {K : Type} [LinearOrderedField K]
    (mag_app_from_mag_abs : K → K → K)
    (truncated_gaussian : K → K → K → K → K)
    (L : EMLikelihood K) (theta : List (String × K)) : Option K :=
  let thetaM := mergeTheta theta L.fixed_params
  match dlookup thetaM "luminosity_distance" with
  | none => none
  | some dL =>
    let mag_app : String → List K := fun f =>
      (L.model.predict thetaM f).map fun m => mag_app_from_mag_abs m dL
    (seqMap (chisq_filt_term truncated_gaussian L mag_app) L.times_det).map
      fun terms => terms.sum + gaussprob_total

/-- Replace only the non-detection fields of a likelihood state; evaluate
must be invariant under this. -/
def setNondet {K : Type} (L : EMLikelihood K)
    (nd nm : List (String × List K)) : EMLikelihood K :=
  { L with times_nondet := nd, mag_nondet := nm }

/-- Modelled from the spec: the standard normal cumulative distribution
function, needed by truncated_gaussian of fiesta.utils, which is not under
src/. -/
noncomputable def normCDF (b : ℝ) : ℝ :=
  (∫ t in Set.Iic b, Real.exp (-(1 / 2) * t ^ 2)) / Real.sqrt (2 * Real.pi)

/-- Modelled from the spec: truncated_gaussian of fiesta.utils is not under
src/.  Per the spec it is the log-likelihood of one observation under a
Gaussian of mean mag_est and scale sigma truncated at the detection limit,
with the same normalising constant omitted as in the untruncated branch, so
that it converges to the untruncated value as the limit tends to
+infinity. -/
noncomputable def truncated_gaussianR (mag_det sigma mag_est lim : ℝ) : ℝ :=
  -(1 / 2) * ((mag_det - mag_est) / sigma) ^ 2 -
    Real.log (normCDF ((lim - mag_est) / sigma))

/-- Concrete surrogate model over the rationals used by the concrete
instances below. -/
def mdlQ : LightcurveModel ℚ := ⟨[0, 2], fun _ _ => [20, 20]⟩

/-- Concrete likelihood state over the rationals with one active filter and
one detection, used to instantiate the evaluate theorems. -/
def likeQ : EMLikelihood ℚ :=
  { model := mdlQ, filters := ["a"], trigger_time := 0, tmin := 0, tmax := 14,
    ignore_nondetections := true,
    detection_limit := [("a", EF.inf)], error_budget := [("a", 1)],
    times_det := [("a", [1])], mag_det := [("a", [21])], mag_err := [("a", [1])],
    sigma := [("a", [2])], times_nondet := [("a", [])], mag_nondet := [("a", [])],
    fixed_params := [] }

section Lemmas

variable {K : Type} {V : Type}

theorem dlookup_foldl_acc (k : String) :
    ∀ (l : List (String × V)) (acc : Option V),
      l.foldl (fun a p => if p.1 = k then some p.2 else a) acc
        = Option.or (dlookup l k) acc := by
  intro l
  induction l with
  | nil => intro acc; simp [dlookup]
  | cons p l ih =>
    intro acc
    have hstep : dlookup (p :: l) k
        = Option.or (dlookup l k) (if p.1 = k then some p.2 else none) := by
      show List.foldl _ _ (p :: l) = _
      rw [List.foldl_cons, ih]
    rw [List.foldl_cons, ih, hstep, Option.or_assoc]
    by_cases hp : p.1 = k
    · simp [hp]
    · simp [hp]

theorem dlookup_cons (k : String) (p : String × V) (l : List (String × V)) :
    dlookup (p :: l) k
      = Option.or (dlookup l k) (if p.1 = k then some p.2 else none) := by
  show List.foldl _ _ (p :: l) = _
  rw [List.foldl_cons, dlookup_foldl_acc]

theorem dlookup_append (k : String) (a b : List (String × V)) :
    dlookup (a ++ b) k = Option.or (dlookup b k) (dlookup a k) := by
  show List.foldl _ _ (a ++ b) = _
  rw [List.foldl_append, dlookup_foldl_acc]
  rfl

theorem dlookup_mem {d : List (String × V)} {k : String} {v : V}
    (h : dlookup d k = some v) : (k, v) ∈ d := by
  induction d with
  | nil => simp [dlookup] at h
  | cons p l ih =>
    rw [dlookup_cons] at h
    cases hl : dlookup l k with
    | some w =>
      rw [hl] at h
      simp only [Option.or_some, Option.some.injEq] at h
      exact List.mem_cons_of_mem _ (ih (hl.trans (by rw [h])))
    | none =>
      rw [hl] at h
      simp only [Option.none_or] at h
      by_cases hp : p.1 = k
      · simp only [hp, if_pos rfl, Option.some.injEq] at h
        have : p = (k, v) := by
          cases p; simp_all
        exact this ▸ List.mem_cons_self _ _
      · simp [hp] at h

theorem dlookup_map_const (fl : List String) (b : V) (k : String) :
    dlookup (fl.map fun f => (f, b)) k = if k ∈ fl then some b else none := by
  induction fl with
  | nil => simp [dlookup]
  | cons f fl ih =>
    rw [List.map_cons, dlookup_cons, ih]
    by_cases hf : f = k
    · subst hf
      by_cases hm : f ∈ fl <;> simp [hm]
    · have : k ∈ f :: fl ↔ k ∈ fl := by
        constructor
        · intro h
          rcases List.mem_cons.mp h with h | h
          · exact absurd h.symm hf
          · exact h
        · exact List.mem_cons_of_mem _
      by_cases hm : k ∈ fl <;> simp [hf, hm, this]

theorem seqMap_keys {B : Type} (g : String → Option (String × B))
    (hg : ∀ f p, g f = some p → p.1 = f) :
    ∀ (fl : List String) (sg : List (String × B)),
      seqMap g fl = some sg → ∀ p ∈ sg, p.1 ∈ fl := by
  intro fl
  induction fl with
  | nil =>
    intro sg h p hp
    simp only [seqMap, Option.some.injEq] at h
    subst h
    simp at hp
  | cons f fl ih =>
    intro sg h p hp
    simp only [seqMap] at h
    cases hgf : g f with
    | none => rw [hgf] at h; simp at h
    | some q =>
      rw [hgf] at h
      cases hrest : seqMap g fl with
      | none => rw [hrest] at h; simp at h
      | some qs =>
        rw [hrest] at h
        simp only [Option.some.injEq] at h
        subst h
        rcases List.mem_cons.mp hp with hp | hp
        · subst hp
          rw [hg f p hgf]
          exact List.mem_cons_self _ _
        · exact List.mem_cons_of_mem _ (ih qs hrest p hp)

theorem sigmaLoop_lookup [LinearOrderedField K] (sqrt : K → K)
    (me : List (String × List K)) (eb : List (String × K)) :
    ∀ (fl : List String) (sg : List (String × List K)),
      sigmaLoop sqrt fl me eb = some sg →
      ∀ f ∈ fl, ∃ es b2, dlookup me f = some es ∧ dlookup eb f = some b2 ∧
        dlookup sg f = some (es.map fun e => sqrt (e ^ 2 + b2 ^ 2)) := by
  intro fl
  induction fl with
  | nil => intro sg _ f hf; simp at hf
  | cons f0 fl ih =>
    intro sg h f hf
    simp only [sigmaLoop, seqMap] at h
    cases hme : dlookup me f0 with
    | none => rw [hme] at h; simp at h
    | some es0 =>
      rw [hme] at h
      cases heb : dlookup eb f0 with
      | none => rw [heb] at h; simp at h
      | some b0 =>
        rw [heb] at h
        cases hrest : seqMap (fun f =>
            match dlookup me f, dlookup eb f with
            | some es, some b => some (f, es.map fun e => sqrt (e ^ 2 + b ^ 2))
            | _, _ => Option.none) fl with
        | none => rw [hrest] at h; simp at h
        | some qs =>
          rw [hrest] at h
          simp only [Option.some.injEq] at h
          subst h
          by_cases hmem : f ∈ fl
          · obtain ⟨es, b2, h1, h2, h3⟩ := ih qs hrest f hmem
            refine ⟨es, b2, h1, h2, ?_⟩
            rw [dlookup_cons, h3, Option.or_some]
          · rcases List.mem_cons.mp hf with hff | hff
            · subst hff
              refine ⟨es0, b0, hme, heb, ?_⟩
              have hnone : dlookup qs f = none := by
                cases hq : dlookup qs f with
                | none => rfl
                | some v =>
                  have := seqMap_keys _ (by
                    intro g p hp
                    cases h1 : dlookup me g with
                    | none => rw [h1] at hp; simp at hp
                    | some es1 =>
                      rw [h1] at hp
                      cases h2 : dlookup eb g with
                      | none => rw [h2] at hp; simp at hp
                      | some b1 =>
                        rw [h2] at hp
                        simp only [Option.some.injEq] at hp
                        rw [← hp]) fl qs hrest (f, v) (dlookup_mem hq)
                  exact absurd this hmem
              rw [dlookup_cons, hnone, Option.none_or, if_pos rfl]
            · exact absurd hff hmem

theorem windowRows_time_bound [LinearOrderedField K]
    (t0 tmin tmax : K) (rows : List (Row K)) :
    ∀ r ∈ windowRows t0 tmin tmax rows, tmin < r.time ∧ r.time < tmax := by
  intro r hr
  unfold windowRows at hr
  have := (List.mem_filter.mp hr).2
  simp only [Bool.and_eq_true, decide_eq_true_eq] at this
  exact this

theorem nondetRows_subset [DecidableEq K] (w : List (Row K)) :
    ∀ r ∈ nondetRows w, r ∈ w := by
  intro r hr
  unfold nondetRows at hr
  obtain ⟨i, _, hget⟩ := List.mem_filterMap.mp hr
  exact List.getElem?_mem hget

theorem process_data_loop_times_det_spec [LinearOrderedField K]
    (dataN : List (String × List (Row K))) (t0 tmin tmax : K) :
    ∀ (fuel i : Nat) (acc : ProcAcc K) (f : String) (ts : List K),
      (f, ts) ∈ (process_data_loop dataN t0 tmin tmax fuel i acc).times_det →
      (f, ts) ∈ acc.times_det ∨
        ∃ rows, dlookup dataN f = some rows ∧
          ts = (detRows (windowRows t0 tmin tmax rows)).map Row.time := by
  intro fuel
  induction fuel with
  | zero =>
    intro i acc f ts h
    exact Or.inl h
  | succ fuel ih =>
    intro i acc f ts h
    rw [process_data_loop] at h
    by_cases hi : i < acc.filters.length
    · rw [dif_pos hi] at h
      cases hdl : dlookup dataN acc.filters[i] with
      | none =>
        simp only [hdl] at h
        have hres := ih (i + 1) _ f ts h
        exact hres
      | some rows =>
        simp only [hdl] at h
        rcases ih (i + 1) _ f ts h with hin | hex
        · simp only [List.mem_append, List.mem_singleton] at hin
          rcases hin with hin | hin
          · exact Or.inl hin
          · right
            have hfst : f = acc.filters[i] := congrArg Prod.fst hin
            have hsnd : ts = (detRows (windowRows t0 tmin tmax rows)).map Row.time :=
              congrArg Prod.snd hin
            exact ⟨rows, hfst ▸ hdl, hsnd⟩
        · exact Or.inr hex
    · rw [dif_neg hi] at h
      exact Or.inl h

theorem process_data_loop_times_nondet_spec [LinearOrderedField K]
    (dataN : List (String × List (Row K))) (t0 tmin tmax : K) :
    ∀ (fuel i : Nat) (acc : ProcAcc K) (f : String) (ts : List K),
      (f, ts) ∈ (process_data_loop dataN t0 tmin tmax fuel i acc).times_nondet →
      (f, ts) ∈ acc.times_nondet ∨
        ∃ rows, dlookup dataN f = some rows ∧
          ts = (nondetRows (windowRows t0 tmin tmax rows)).map Row.time := by
  intro fuel
  induction fuel with
  | zero =>
    intro i acc f ts h
    exact Or.inl h
  | succ fuel ih =>
    intro i acc f ts h
    rw [process_data_loop] at h
    by_cases hi : i < acc.filters.length
    · rw [dif_pos hi] at h
      cases hdl : dlookup dataN acc.filters[i] with
      | none =>
        simp only [hdl] at h
        have hres := ih (i + 1) _ f ts h
        exact hres
      | some rows =>
        simp only [hdl] at h
        rcases ih (i + 1) _ f ts h with hin | hex
        · simp only [List.mem_append, List.mem_singleton] at hin
          rcases hin with hin | hin
          · exact Or.inl hin
          · right
            have hfst : f = acc.filters[i] := congrArg Prod.fst hin
            have hsnd : ts = (nondetRows (windowRows t0 tmin tmax rows)).map Row.time :=
              congrArg Prod.snd hin
            exact ⟨rows, hfst ▸ hdl, hsnd⟩
        · exact Or.inr hex
    · rw [dif_neg hi] at h
      exact Or.inl h

end Lemmas

/-- C2: for a filter whose detection limit is +infinity, get_chisq_filt takes
the untruncated branch and returns -0.5 * sum(((mag_det - mag_est)/sigma)^2)
with no normalising constant; for any finite limit it takes the truncated
branch instead (so the untruncated branch is selected exactly when the limit
is +infinity); and with zero detection rows the sum over the empty set is
0. -/
theorem get_chisq_filt_untruncated_iff {K : Type} [LinearOrderedField K]
    (truncated_gaussian : K → K → K → K → K) (mag_est mag_det sigma : List K) :
    get_chisq_filt truncated_gaussian mag_est mag_det sigma EF.inf
      = -(1 / 2) * ((mag_det.zip (mag_est.zip sigma)).map
          fun p => ((p.1 - p.2.1) / p.2.2) ^ 2).sum
    ∧ (∀ l : K, get_chisq_filt truncated_gaussian mag_est mag_det sigma (EF.fin l)
        = compute_chisq_trunc truncated_gaussian mag_est mag_det sigma l)
    ∧ get_chisq_filt truncated_gaussian [] [] [] EF.inf = 0 := by
  refine ⟨?_, fun l => rfl, ?_⟩
  · show compute_chisq mag_est mag_det sigma EF.inf = _
    unfold compute_chisq
    congr 1
    congr 1
    exact List.map_congr_left fun p _ => by rw [div_pow]
  · show compute_chisq [] [] [] EF.inf = 0
    simp [compute_chisq]

/-- C9: evaluate merges theta with the fixed parameters by building a new
mapping from the two inputs; under dictionary lookup, a fixed binding always
overrides a same-named sampled binding, and a name absent from fixed_params
keeps its value from theta.  The merge is a pure function of its arguments,
so the caller's theta mapping is left untouched. -/
theorem mergeTheta_override {K : Type} (theta fixed_params : List (String × K)) :
    mergeTheta theta fixed_params = theta ++ fixed_params
    ∧ ∀ k, dlookup (mergeTheta theta fixed_params) k
        = Option.or (dlookup fixed_params k) (dlookup theta k) :=
  ⟨rfl, fun k => dlookup_append k theta fixed_params⟩

/-- C10: the constructor aliases the caller's filter list and removes absent
filters from it in place, so after a successful construction the caller's
list has lost the absent filter "A": the filters list the caller passed as
["B", "A"] is afterwards ["B"].  (The observation mapping, in contrast, is
deep-copied before processing, so the pure data argument is never written
to.) -/
theorem init_mutates_caller_filters :
    (EMLikelihood.init (fun q => q) mdlQ ["B", "A"]
      [("B", [⟨1, 20, EF.fin 1⟩])] 0 0 14 (BudgetArg.scalar 1) [] true
      LimitArg.none).map (fun L => L.filters) = some ["B"]
    ∧ (["B"] : List String) ≠ ["B", "A"] := by
  constructor
  · simp +decide only [EMLikelihood.init, process_data, process_data_loop, windowRows,
      detRows, detIdxs, nondetRows, normalizeData, normKey, dlookup, seqMap, sigmaLoop,
      mkErrorBudget, mkDetLimit, EF.val, List.foldl, List.map, List.filter,
      List.filterMap, List.length, List.range_succ, List.range_zero, List.erase,
      List.append_nil, List.nil_append, List.cons_append, List.singleton_append,
      sub_zero, List.getElem?_cons_zero, List.getElem?_cons_succ, List.getElem?_nil,
      List.isEmpty, Option.map, Option.isSome]
  · decide

/-- C3: requesting the absent filter "X" ahead of the present filter "Y" is
not a soft drop: removing "X" from the list being iterated makes the loop
skip "Y" entirely, so "Y" gets no data entries and the sigma precomputation
fails with a KeyError (modelled as none) instead of construction
succeeding with "Y" active. -/
theorem init_absent_filter_keyerror :
    EMLikelihood.init (fun q => q) mdlQ ["X", "Y"]
      [("Y", [⟨1, 20, EF.fin 1⟩])] 0 0 14 (BudgetArg.scalar 1) [] true
      LimitArg.none = none := by
  simp +decide only [EMLikelihood.init, process_data, process_data_loop, windowRows,
    detRows, detIdxs, nondetRows, normalizeData, normKey, dlookup, seqMap, sigmaLoop,
    mkErrorBudget, mkDetLimit, EF.val, List.foldl, List.map, List.filter,
    List.filterMap, List.length, List.range_succ, List.range_zero, List.erase,
    List.append_nil, List.nil_append, List.cons_append, List.singleton_append,
    sub_zero, List.getElem?_cons_zero, List.getElem?_cons_succ, List.getElem?_nil,
    List.isEmpty, Option.map, Option.isSome]

/-- C4: the windowed rows are not partitioned into detections and
non-detections.  First input: a single row with infinite error vanishes from
both halves (times[~idx] with the empty index array selects nothing).
Second input: with finite-error rows at times 1 and 2 and an infinite-error
row at time 3, the bitwise-not indices -(i+1) select the mirrored positions,
so the non-detection times come out as [3, 2]: the detection row at time 2
appears in both halves and nothing represents a complement. -/
theorem nondet_rows_not_partition :
    ((EMLikelihood.init (fun q => q) mdlQ ["a"]
      [("a", [⟨1, 20, EF.inf⟩])] 0 0 14 (BudgetArg.scalar 1) [] false
      LimitArg.none).map fun L => (dlookup L.times_det "a", dlookup L.times_nondet "a"))
      = some (some [], some [])
    ∧ ((EMLikelihood.init (fun q => q) mdlQ ["a"]
      [("a", [⟨1, 20, EF.fin 1⟩, ⟨2, 21, EF.fin 1⟩, ⟨3, 22, EF.inf⟩])]
      0 0 14 (BudgetArg.scalar 1) [] false
      LimitArg.none).map fun L => (dlookup L.times_det "a", dlookup L.times_nondet "a"))
      = some (some [1, 2], some [3, 2]) := by
  constructor
  · simp +decide only [EMLikelihood.init, process_data, process_data_loop, windowRows,
      detRows, detIdxs, nondetRows, normalizeData, normKey, dlookup, seqMap, sigmaLoop,
      mkErrorBudget, mkDetLimit, EF.val, List.foldl, List.map, List.filter,
      List.filterMap, List.length, List.range_succ, List.range_zero, List.erase,
      List.append_nil, List.nil_append, List.cons_append, List.singleton_append,
      sub_zero, List.getElem?_cons_zero, List.getElem?_cons_succ, List.getElem?_nil,
      List.isEmpty, Option.map, Option.isSome]
  · simp +decide only [EMLikelihood.init, process_data, process_data_loop, windowRows,
      detRows, detIdxs, nondetRows, normalizeData, normKey, dlookup, seqMap, sigmaLoop,
      mkErrorBudget, mkDetLimit, EF.val, List.foldl, List.map, List.filter,
      List.filterMap, List.length, List.range_succ, List.range_zero, List.erase,
      List.append_nil, List.nil_append, List.cons_append, List.singleton_append,
      sub_zero, List.getElem?_cons_zero, List.getElem?_cons_succ, List.getElem?_nil,
      List.isEmpty, Option.map, Option.isSome]

/-- C5: an input whose only filter has one detection row and no
non-detection rows, constructed with ignore_nondetections = False: the flag
is not forced to true, because the code tests the number of entries of the
times_nondet dictionary (one per active filter) rather than the number of
non-detection rows. -/
theorem ignore_nondetections_not_forced :
    ((EMLikelihood.init (fun q => q) mdlQ ["a"]
      [("a", [⟨1, 20, EF.fin 1⟩])] 0 0 14 (BudgetArg.scalar 1) [] false
      LimitArg.none).map fun L => L.ignore_nondetections) = some false := by
  simp +decide only [EMLikelihood.init, process_data, process_data_loop, windowRows,
    detRows, detIdxs, nondetRows, normalizeData, normKey, dlookup, seqMap, sigmaLoop,
    mkErrorBudget, mkDetLimit, EF.val, List.foldl, List.map, List.filter,
    List.filterMap, List.length, List.range_succ, List.range_zero, List.erase,
    List.append_nil, List.nil_append, List.cons_append, List.singleton_append,
    sub_zero, List.getElem?_cons_zero, List.getElem?_cons_succ, List.getElem?_nil,
    List.isEmpty, Option.map, Option.isSome]

/-- C6 counterexample: with trigger time 0 and window bounds tmin = 0,
tmax = 14, a detection row at time exactly tmin is not retained: both the
detection and the non-detection arrays of the only filter come out empty,
because the mask uses the strict comparison times > tmin, not an inclusive
one. -/
theorem row_at_tmin_excluded :
    ((EMLikelihood.init (fun q => q) mdlQ ["a"]
      [("a", [⟨0, 20, EF.fin 1⟩])] 0 0 14 (BudgetArg.scalar 1) [] true
      LimitArg.none).map fun L => (dlookup L.times_det "a", dlookup L.times_nondet "a"))
      = some (some [], some []) := by
  simp +decide only [EMLikelihood.init, process_data, process_data_loop, windowRows,
    detRows, detIdxs, nondetRows, normalizeData, normKey, dlookup, seqMap, sigmaLoop,
    mkErrorBudget, mkDetLimit, EF.val, List.foldl, List.map, List.filter,
    List.filterMap, List.length, List.range_succ, List.range_zero, List.erase,
    List.append_nil, List.nil_append, List.cons_append, List.singleton_append,
    sub_zero, List.getElem?_cons_zero, List.getElem?_cons_succ, List.getElem?_nil,
    List.isEmpty, Option.map, Option.isSome]

/-- C1: evaluate returns exactly the sum of the per-filter chi-square terms
over the active filters plus the non-detection total, which is the constant
0; and the returned value never depends on the non-detection dictionaries:
replacing times_nondet and mag_nondet by anything leaves the result
unchanged. -/
theorem evaluate_chisq_sum {K : Type} [LinearOrderedField K]
    (mag_app_from_mag_abs : K → K → K) (truncated_gaussian : K → K → K → K → K)
    (L : EMLikelihood K) (theta : List (String × K))
    (nd nm : List (String × List K)) :
    evaluate mag_app_from_mag_abs truncated_gaussian (setNondet L nd nm) theta
      = evaluate mag_app_from_mag_abs truncated_gaussian L theta
    ∧ ∀ r, evaluate mag_app_from_mag_abs truncated_gaussian L theta = some r →
        ∃ dL terms,
          dlookup (mergeTheta theta L.fixed_params) "luminosity_distance" = some dL
          ∧ seqMap (chisq_filt_term truncated_gaussian L fun f =>
              (L.model.predict (mergeTheta theta L.fixed_params) f).map
                fun m => mag_app_from_mag_abs m dL) L.times_det = some terms
          ∧ r = terms.sum + gaussprob_total ∧ (gaussprob_total : K) = 0 := by
  constructor
  · cases L
    rfl
  · intro r h
    simp only [evaluate] at h
    cases hdl : dlookup (mergeTheta theta L.fixed_params) "luminosity_distance" with
    | none =>
      rw [hdl] at h
      exact absurd h (by simp)
    | some dL =>
      rw [hdl] at h
      obtain ⟨terms, hterms, hr⟩ := Option.map_eq_some'.mp h
      exact ⟨dL, terms, rfl, hterms, hr.symm, rfl⟩

/-- Witness for C1: a concrete one-filter likelihood over the rationals at a
concrete parameter mapping; evaluate succeeds and its value decomposes as
the per-filter chi-square sum plus the zero non-detection term. -/
theorem evaluate_chisq_sum_witness :
    ∃ r : ℚ, evaluate (fun m _ => m) (fun _ _ _ _ => 0) likeQ
        [("luminosity_distance", 40)] = some r
      ∧ ∃ dL terms,
          dlookup (mergeTheta [("luminosity_distance", 40)] likeQ.fixed_params)
            "luminosity_distance" = some dL
          ∧ seqMap (chisq_filt_term (fun _ _ _ _ => 0) likeQ fun f =>
              (likeQ.model.predict (mergeTheta [("luminosity_distance", 40)]
                likeQ.fixed_params) f).map fun m => m) likeQ.times_det = some terms
          ∧ r = terms.sum + gaussprob_total ∧ (gaussprob_total : ℚ) = 0 := by
  have hs : (evaluate (fun m _ => m) (fun _ _ _ _ => 0) likeQ
      [("luminosity_distance", 40)]).isSome = true := by
    simp +decide only [evaluate, mergeTheta, chisq_filt_term, dlookup, seqMap,
      interp1, interpGo, get_chisq_filt, compute_chisq, compute_chisq_trunc,
      gaussprob_total, likeQ, mdlQ, List.foldl, List.map, List.zip, List.zipWith,
      List.sum, List.append_nil, List.nil_append, List.cons_append, Option.map,
      Option.isSome]
  obtain ⟨r, hr⟩ := Option.isSome_iff_exists.mp hs
  exact ⟨r, hr, (evaluate_chisq_sum (fun m _ => m) (fun _ _ _ _ => 0) likeQ
    [("luminosity_distance", 40)] [] []).2 r hr⟩

/-- C8: constructing with a scalar error budget broadcasts it to every
requested filter, an absent detection limit becomes +infinity for every
requested filter, and for every active filter the precomputed sigma is the
elementwise sqrt(mag_err^2 + budget^2). -/
theorem init_scalar_budget_sigma {K : Type} [LinearOrderedField K]
    (sqrt : K → K) (model : LightcurveModel K) (filters : List String)
    (data : List (String × List (Row K))) (trigger_time tmin tmax : K) (b : K)
    (fixed_params : List (String × K)) (ignore_nondetections : Bool)
    (L : EMLikelihood K)
    (h : EMLikelihood.init sqrt model filters data trigger_time tmin tmax
      (BudgetArg.scalar b) fixed_params ignore_nondetections LimitArg.none = some L) :
    L.error_budget = filters.map (fun f => (f, b))
    ∧ L.detection_limit = filters.map (fun f => (f, EF.inf))
    ∧ ∀ f ∈ L.filters, ∃ es, dlookup L.mag_err f = some es
        ∧ dlookup L.sigma f = some (es.map fun e => sqrt (e ^ 2 + b ^ 2)) := by
  simp only [EMLikelihood.init] at h
  obtain ⟨sg, hsg, hL⟩ := Option.map_eq_some'.mp h
  subst hL
  refine ⟨rfl, rfl, ?_⟩
  intro f hf
  obtain ⟨es, b2, h1, h2, h3⟩ := sigmaLoop_lookup sqrt _ _ _ _ hsg f hf
  have hb : b2 = b := by
    have h2b : dlookup (List.map (fun f => (f, b)) filters) f = some b2 := h2
    rw [dlookup_map_const] at h2b
    by_cases hm : f ∈ filters
    · rw [if_pos hm] at h2b
      exact (Option.some.inj h2b).symm
    · rw [if_neg hm] at h2b
      exact absurd h2b (by simp)
  exact ⟨es, h1, hb ▸ h3⟩

/-- Witness for C8: three requested filters, all present, scalar error budget
1/2, no detection limit; construction succeeds and satisfies the broadcast,
the +infinity default and the sigma formula. -/
theorem init_scalar_budget_sigma_witness :
    ∃ L : EMLikelihood ℚ,
      EMLikelihood.init (fun q => q) mdlQ ["x", "y", "z"]
        [("x", [⟨1, 20, EF.fin 1⟩]), ("y", [⟨1, 20, EF.fin 1⟩]),
         ("z", [⟨1, 20, EF.fin 1⟩])]
        0 0 14 (BudgetArg.scalar (1 / 2)) [] true LimitArg.none = some L
      ∧ L.error_budget = (["x", "y", "z"].map fun f => (f, (1 / 2 : ℚ)))
      ∧ L.detection_limit = (["x", "y", "z"].map fun f => (f, (EF.inf : EF ℚ)))
      ∧ ∀ f ∈ L.filters, ∃ es, dlookup L.mag_err f = some es
          ∧ dlookup L.sigma f = some (es.map fun e => (fun q => q) (e ^ 2 + (1 / 2 : ℚ) ^ 2)) := by
  have hs : (EMLikelihood.init (fun q => q) mdlQ ["x", "y", "z"]
      [("x", [⟨1, 20, EF.fin 1⟩]), ("y", [⟨1, 20, EF.fin 1⟩]),
       ("z", [⟨1, 20, EF.fin 1⟩])]
      0 0 14 (BudgetArg.scalar (1 / 2)) [] true LimitArg.none).isSome = true := by
    simp +decide only [EMLikelihood.init, process_data, process_data_loop, windowRows,
      detRows, detIdxs, nondetRows, normalizeData, normKey, dlookup, seqMap, sigmaLoop,
      mkErrorBudget, mkDetLimit, EF.val, List.foldl, List.map, List.filter,
      List.filterMap, List.length, List.range_succ, List.range_zero, List.erase,
      List.append_nil, List.nil_append, List.cons_append, List.singleton_append,
      sub_zero, List.getElem?_cons_zero, List.getElem?_cons_succ, List.getElem?_nil,
      List.isEmpty, Option.map, Option.isSome]
  obtain ⟨L, hL⟩ := Option.isSome_iff_exists.mp hs
  obtain ⟨hb, hd, hsig⟩ := init_scalar_budget_sigma (fun q => q) mdlQ _ _ 0 0 14 (1 / 2)
    [] true L hL
  exact ⟨L, hL, hb, hd, hsig⟩

/-- C6 (amended): for every active filter, the rows retained by construction
are exactly those of the windowed data whose trigger-shifted time t lies in
the open window tmin < t < tmax (both bounds strict: a row with t = tmin or
t = tmax is excluded); rows outside the window are silently dropped, and
every stored detection or non-detection time lies strictly inside the
window. -/
theorem times_det_open_window {K : Type} [LinearOrderedField K]
    (sqrt : K → K) (model : LightcurveModel K) (filters : List String)
    (data : List (String × List (Row K))) (trigger_time tmin tmax : K)
    (error_budget : BudgetArg K) (fixed_params : List (String × K))
    (ignore_nondetections : Bool) (detection_limit : LimitArg K)
    (L : EMLikelihood K) (f : String) (ts : List K)
    (h : EMLikelihood.init sqrt model filters data trigger_time tmin tmax
      error_budget fixed_params ignore_nondetections detection_limit = some L)
    (hts : dlookup L.times_det f = some ts) :
    (∃ rows, dlookup (normalizeData data) f = some rows
      ∧ ts = (detRows (windowRows trigger_time tmin tmax rows)).map Row.time)
    ∧ (∀ t ∈ ts, tmin < t ∧ t < tmax)
    ∧ ∀ g ns, dlookup L.times_nondet g = some ns → ∀ t ∈ ns, tmin < t ∧ t < tmax := by
  simp only [EMLikelihood.init] at h
  obtain ⟨sg, hsg, hL⟩ := Option.map_eq_some'.mp h
  subst hL
  have hmem : (f, ts) ∈ (process_data filters data trigger_time tmin tmax).times_det :=
    dlookup_mem hts
  unfold process_data at hmem
  have hspec := process_data_loop_times_det_spec (normalizeData data)
    trigger_time tmin tmax filters.length 0 ⟨filters, [], [], [], [], []⟩ f ts hmem
  rcases hspec with habs | ⟨rows, hrows, hts2⟩
  · simp at habs
  refine ⟨⟨rows, hrows, hts2⟩, ?_, ?_⟩
  · intro t ht
    rw [hts2] at ht
    obtain ⟨r, hr, hrt⟩ := List.mem_map.mp ht
    have hr2 : r ∈ (windowRows trigger_time tmin tmax rows).filter
        (fun r => decide (r.err ≠ EF.inf)) := hr
    have hrw : r ∈ windowRows trigger_time tmin tmax rows :=
      List.filter_subset' _ hr2
    exact hrt ▸ windowRows_time_bound trigger_time tmin tmax rows r hrw
  · intro g ns hns t ht
    have hmem2 : (g, ns) ∈ (process_data filters data trigger_time tmin tmax).times_nondet :=
      dlookup_mem hns
    unfold process_data at hmem2
    have hspec2 := process_data_loop_times_nondet_spec (normalizeData data)
      trigger_time tmin tmax filters.length 0 ⟨filters, [], [], [], [], []⟩ g ns hmem2
    rcases hspec2 with habs | ⟨rows2, _, hns2⟩
    · simp at habs
    rw [hns2] at ht
    obtain ⟨r, hr, hrt⟩ := List.mem_map.mp ht
    have hrw : r ∈ windowRows trigger_time tmin tmax rows2 :=
      nondetRows_subset _ r hr
    exact hrt ▸ windowRows_time_bound trigger_time tmin tmax rows2 r hrw

/-- Witness for C6 (amended): one filter with a single detection row at
shifted time 1, window (0, 14); construction succeeds, the stored detection
times are the windowed ones and lie strictly inside the window. -/
theorem times_det_open_window_witness :
    ∃ (L : EMLikelihood ℚ) (rows : List (Row ℚ)),
      EMLikelihood.init (fun q => q) mdlQ ["a"] [("a", [⟨1, 20, EF.fin 1⟩])]
        0 0 14 (BudgetArg.scalar 1) [] true LimitArg.none = some L
      ∧ dlookup L.times_det "a" = some [1]
      ∧ dlookup (normalizeData [("a", [⟨1, 20, EF.fin 1⟩])]) "a" = some rows
      ∧ [(1 : ℚ)] = (detRows (windowRows (0 : ℚ) 0 14 rows)).map Row.time
      ∧ ∀ t ∈ [(1 : ℚ)], (0 : ℚ) < t ∧ t < 14 := by
  have hpair : (EMLikelihood.init (fun q => q) mdlQ ["a"] [("a", [⟨1, 20, EF.fin 1⟩])]
      0 0 14 (BudgetArg.scalar 1) [] true LimitArg.none).map
      (fun L => dlookup L.times_det "a") = some (some [1]) := by
    simp +decide only [EMLikelihood.init, process_data, process_data_loop, windowRows,
      detRows, detIdxs, nondetRows, normalizeData, normKey, dlookup, seqMap, sigmaLoop,
      mkErrorBudget, mkDetLimit, EF.val, List.foldl, List.map, List.filter,
      List.filterMap, List.length, List.range_succ, List.range_zero, List.erase,
      List.append_nil, List.nil_append, List.cons_append, List.singleton_append,
      sub_zero, List.getElem?_cons_zero, List.getElem?_cons_succ, List.getElem?_nil,
      List.isEmpty, Option.map, Option.isSome]
  obtain ⟨L, hL, hproj⟩ := Option.map_eq_some'.mp hpair
  have hts : dlookup L.times_det "a" = some [1] := hproj
  obtain ⟨⟨rows, hrows, hdet⟩, hbound, _⟩ := times_det_open_window (fun q => q) mdlQ
    ["a"] [("a", [⟨1, 20, EF.fin 1⟩])] 0 0 14 (BudgetArg.scalar 1) [] true
    LimitArg.none L "a" [1] hL hts
  exact ⟨L, rows, hL, hts, hrows, hdet, hbound⟩

theorem normCDF_pos (x : ℝ) : 0 < normCDF x := by
  unfold normCDF
  have hint : MeasureTheory.IntegrableOn (fun t : ℝ => Real.exp (-(1 / 2) * t ^ 2))
      (Set.Iic x) := (integrable_exp_neg_mul_sq (by norm_num)).integrableOn
  apply div_pos
  · rw [MeasureTheory.setIntegral_pos_iff_support_of_nonneg_ae
      (Filter.Eventually.of_forall fun t => (Real.exp_pos _).le) hint]
    have hsupp : Function.support (fun t : ℝ => Real.exp (-(1 / 2) * t ^ 2))
        = Set.univ := by
      ext t
      simp [Function.mem_support, Real.exp_ne_zero]
    rw [hsupp, Set.univ_inter, Real.volume_Iic]
    exact ENNReal.zero_lt_top
  · exact Real.sqrt_pos.mpr (by positivity)

theorem tendsto_normCDF_atTop : Filter.Tendsto normCDF Filter.atTop (nhds 1) := by
  have hint : MeasureTheory.Integrable (fun t : ℝ => Real.exp (-(1 / 2) * t ^ 2)) :=
    integrable_exp_neg_mul_sq (by norm_num)
  have hcov : MeasureTheory.AECover (MeasureTheory.volume : MeasureTheory.Measure ℝ)
      Filter.atTop (fun b : ℝ => Set.Iic b) :=
    MeasureTheory.aecover_Iic Filter.tendsto_id
  have h1 := hcov.integral_tendsto_of_countably_generated hint
  have h2 : (∫ t : ℝ, Real.exp (-(1 / 2) * t ^ 2)) = Real.sqrt (2 * Real.pi) := by
    rw [integral_gaussian]
    congr 1
    ring
  have hne : Real.sqrt (2 * Real.pi) ≠ 0 := ne_of_gt (Real.sqrt_pos.mpr (by positivity))
  have h3 := h1.div_const (Real.sqrt (2 * Real.pi))
  rw [h2, div_self hne] at h3
  exact h3

theorem truncated_gaussianR_tendsto (d s e : ℝ) (hs : 0 < s) :
    Filter.Tendsto (fun lim => truncated_gaussianR d s e lim) Filter.atTop
      (nhds (-(1 / 2) * ((d - e) / s) ^ 2)) := by
  have hsub : Filter.Tendsto (fun lim : ℝ => lim - e) Filter.atTop Filter.atTop := by
    simpa [sub_eq_add_neg] using
      Filter.tendsto_atTop_add_const_right Filter.atTop (-e) Filter.tendsto_id
  have hβ : Filter.Tendsto (fun lim : ℝ => (lim - e) / s) Filter.atTop Filter.atTop :=
    hsub.atTop_div_const hs
  have hΦ := tendsto_normCDF_atTop.comp hβ
  have hlog := (Real.continuousAt_log one_ne_zero).tendsto.comp hΦ
  rw [Real.log_one] at hlog
  have hmain := (tendsto_const_nhds
    (x := -(1 / 2) * ((d - e) / s) ^ 2) (f := Filter.atTop (α := ℝ))).sub hlog
  rw [sub_zero] at hmain
  exact hmain

theorem compute_chisq_trunc_sum_tendsto :
    ∀ (ld le ls : List ℝ), (∀ s ∈ ls, 0 < s) →
      Filter.Tendsto (fun lim => compute_chisq_trunc truncated_gaussianR le ld ls lim)
        Filter.atTop (nhds (compute_chisq le ld ls EF.inf)) := by
  intro ld
  induction ld with
  | nil =>
    intro le ls _
    simp only [compute_chisq_trunc, compute_chisq, List.zip_nil_left, List.map_nil,
      List.sum_nil, mul_zero]
    exact tendsto_const_nhds
  | cons d ld ih =>
    intro le ls h
    cases le with
    | nil =>
      simp only [compute_chisq_trunc, compute_chisq, List.zip_nil_left,
        List.zip_nil_right, List.map_nil, List.sum_nil, mul_zero]
      exact tendsto_const_nhds
    | cons e le =>
      cases ls with
      | nil =>
        simp only [compute_chisq_trunc, compute_chisq, List.zip_nil_left,
          List.zip_nil_right, List.map_nil, List.sum_nil, mul_zero]
        exact tendsto_const_nhds
      | cons s ls =>
        have hhead := truncated_gaussianR_tendsto d s e (h s (List.mem_cons_self s ls))
        have htail := ih le ls fun s2 hs2 => h s2 (List.mem_cons_of_mem _ hs2)
        have hsum := hhead.add htail
        have hfun : (fun lim => compute_chisq_trunc truncated_gaussianR
              (e :: le) (d :: ld) (s :: ls) lim)
            = fun lim => truncated_gaussianR d s e lim
              + compute_chisq_trunc truncated_gaussianR le ld ls lim := by
          funext lim
          simp only [compute_chisq_trunc, List.zip_cons_cons, List.map_cons,
            List.sum_cons]
        have hval : compute_chisq (e :: le) (d :: ld) (s :: ls) EF.inf
            = -(1 / 2) * ((d - e) / s) ^ 2 + compute_chisq le ld ls EF.inf := by
          simp only [compute_chisq, List.zip_cons_cons, List.map_cons, List.sum_cons]
          rw [div_pow]
          ring
        rw [hfun, hval]
        exact hsum

/-- C7: for fixed mag_est, mag_det and (positive) sigma, the truncated-branch
log-likelihood compute_chisq_trunc converges, as the detection limit tends to
+infinity, to the untruncated value compute_chisq; and it stays well defined
along the way: the normal distribution function whose logarithm it takes is
strictly positive everywhere.  The per-observation truncated_gaussian is
modelled from the spec (fiesta.utils is not under src/). -/
theorem compute_chisq_trunc_tendsto (mag_est mag_det sigma : List ℝ)
    (h : ∀ s ∈ sigma, 0 < s) :
    Filter.Tendsto
      (fun lim => compute_chisq_trunc truncated_gaussianR mag_est mag_det sigma lim)
      Filter.atTop (nhds (compute_chisq mag_est mag_det sigma EF.inf))
    ∧ ∀ x : ℝ, 0 < normCDF x :=
  ⟨compute_chisq_trunc_sum_tendsto mag_det mag_est sigma h, normCDF_pos⟩

/-- Witness for C7 at one observation with mag_est = 0, mag_det = 1 and
sigma = 1. -/
theorem compute_chisq_trunc_tendsto_witness :
    (∀ s ∈ [(1 : ℝ)], 0 < s)
    ∧ (Filter.Tendsto
        (fun lim => compute_chisq_trunc truncated_gaussianR [0] [1] [1] lim)
        Filter.atTop (nhds (compute_chisq [0] [1] [1] EF.inf))
      ∧ ∀ x : ℝ, 0 < normCDF x) :=
  ⟨by norm_num, compute_chisq_trunc_tendsto [0] [1] [1] (by norm_num)⟩

end Fiesta
